import Mathlib

/-!
Verification of the document embedding and retrieval-augmented chat subsystem
of the healthcare-ai-app repository.

The storage layer is embedded from the SQL migrations
(`enable_pgvector_and_create_chunks_table.sql`, `fix_foreign_key_cascade.sql`):
the `document_chunks` table, its foreign keys with their `ON DELETE` actions,
and the `updated_at` trigger. PostgreSQL semantics are made explicit: a
referential action (`CASCADE`, `SET NULL`) is carried out as ordinary row
operations on the referencing table, so `ON DELETE SET NULL` is an UPDATE that
fires the table's `BEFORE UPDATE` row trigger.

The frontend chat client is embedded from
`frontend/services/rag.service.ts`, `frontend/components/patients/PatientChatbot.tsx`
and the MediKeepChatWidget component.

The retrieval read path (`query_nearest`) and the chat orchestrator exist in
the deployment but not in this repository snapshot (only their schema,
callers and endpoint names are present); they are modelled from the
specification, and each such definition says so in its doc comment.
-/

namespace HealthcareAI

/-- Fixed dimensionality of the `embedding` column: `vector(3072)`
(OpenAI text-embedding-3-large), from the pgvector migration. -/
def EMBEDDING_DIM : Nat := 3072

/-- One row of the `document_chunks` table, column for column from the
migration `enable_pgvector_and_create_chunks_table.sql`. Timestamps are
modelled as abstract instants (`Nat`); the NOT NULL `embedding` column is a
non-optional field, nullable columns are `Option`. -/
structure Chunk where
  id : Nat
  patient_id : Nat
  document_id : Nat
  extraction_id : Option Nat
  chunk_text : String
  chunk_index : Nat
  chunk_start_token : Option Nat
  chunk_end_token : Option Nat
  total_tokens : Option Nat
  document_type : Option String
  original_filename : Option String
  upload_date : Option Nat
  extraction_method : Option String
  embedding : List ℤ
  created_at : Nat
  updated_at : Option Nat
deriving DecidableEq

/-- A row of the `documents` table, restricted to the columns the chunk
subsystem reads (its id and owning patient). -/
structure Doc where
  id : Nat
  patient_id : Nat
deriving DecidableEq

/-- Denormalized document metadata copied onto every chunk row at write time
(columns `document_type`, `original_filename`, `upload_date`,
`extraction_method` of `document_chunks`). -/
structure DocMeta where
  document_type : Option String
  original_filename : Option String
  upload_date : Option Nat
  extraction_method : Option String
deriving DecidableEq

/-- Raw ingestion input for one chunk: its text, optional token offsets, and
the embedding once the embedder has produced it (`none` while pending). -/
structure Piece where
  text : String
  start_token : Option Nat
  end_token : Option Nat
  tok_count : Option Nat
  embedding : Option (List ℤ)
deriving DecidableEq

/-- The relational store: the `patients`, `documents` and `extractions` rows
the chunk subsystem references, the `document_chunks` rows, and the `SERIAL`
id counter. -/
structure Store where
  patients : List Nat
  documents : List Doc
  extractions : List Nat
  chunks : List Chunk
  next_id : Nat
deriving DecidableEq

def Store.empty : Store := ⟨[], [], [], [], 0⟩

/-- Ids of the current `documents` rows. -/
def docIds (s : Store) : List Nat := s.documents.map Doc.id

def add_patient (s : Store) (pid : Nat) : Store :=
  { s with patients := pid :: s.patients }

def add_document (s : Store) (did pid : Nat) : Option Store :=
  if s.patients.contains pid then
    some { s with documents := ⟨did, pid⟩ :: s.documents }
  else none

def add_extraction (s : Store) (eid : Nat) : Store :=
  { s with extractions := eid :: s.extractions }

/-- The pgvector column constraint on an ingestion batch: every piece must
already carry an embedding (NOT NULL) of the fixed `vector(3072)`
dimensionality. -/
def piecesOk (pieces : List Piece) : Bool :=
  pieces.all fun p =>
    match p.embedding with
    | some v => v.length == EMBEDDING_DIM
    | none => false

/-- Foreign-key checks for inserting chunk rows: `patient_id` and
`document_id` are NOT NULL references, `extraction_id` is a nullable
reference. -/
def fkOk (s : Store) (did pid : Nat) (eid : Option Nat) : Bool :=
  decide (pid ∈ s.patients) && decide (did ∈ docIds s) &&
    (match eid with
     | none => true
     | some e => decide (e ∈ s.extractions))

/-- Chunk rows inserted for one document: `chunk_index` is the zero-based
position in the batch, ids are consecutive `SERIAL` values from `base`,
`created_at` defaults to the current instant, `updated_at` starts null, and
the document metadata is copied onto every row. -/
def buildChunks (pid did : Nat) (eid : Option Nat) (meta : DocMeta)
    (base now : Nat) : Nat → List Piece → List Chunk
  | _, [] => []
  | i, p :: ps =>
    { id := base + i
      patient_id := pid
      document_id := did
      extraction_id := eid
      chunk_text := p.text
      chunk_index := i
      chunk_start_token := p.start_token
      chunk_end_token := p.end_token
      total_tokens := p.tok_count
      document_type := meta.document_type
      original_filename := meta.original_filename
      upload_date := meta.upload_date
      extraction_method := meta.extraction_method
      embedding := p.embedding.getD []
      created_at := now
      updated_at := none } :: buildChunks pid did eid meta base now (i + 1) ps

/-- `replace_chunks_for_document`: in one transaction, delete the document's
existing chunk rows and insert the new batch. The transaction is rejected
(`none`) when a foreign key is violated, when a piece has no embedding yet
(the `embedding` column is NOT NULL), or when an embedding does not have the
fixed `vector(3072)` dimensionality. -/
def replace_chunks_for_document (s : Store) (did pid : Nat) (eid : Option Nat)
    (meta : DocMeta) (pieces : List Piece) (now : Nat) : Option Store :=
  if fkOk s did pid eid && piecesOk pieces then
    some { s with
      chunks := s.chunks.filter (fun c => c.document_id ≠ did)
        ++ buildChunks pid did eid meta s.next_id now 0 pieces
      next_id := s.next_id + pieces.length }
  else none

/-- Deleting a `documents` row: through
`document_chunks_document_id_fkey ... ON DELETE CASCADE`
(migration `fix_foreign_key_cascade.sql`) every chunk row whose `document_id`
references it is deleted by the database. -/
def delete_document (s : Store) (did : Nat) : Store :=
  { s with
    documents := s.documents.filter (fun d => d.id ≠ did)
    chunks := s.chunks.filter (fun c => c.document_id ≠ did) }

/-- Deleting a `patients` row: the patient's documents cascade away, and the
dependent chunk rows are deleted through both chunk foreign keys —
`document_chunks_patient_id_fkey ON DELETE CASCADE` directly, and
`document_chunks_document_id_fkey ON DELETE CASCADE` through each deleted
document. -/
def delete_patient (s : Store) (pid : Nat) : Store :=
  { s with
    patients := s.patients.filter (fun q => q ≠ pid)
    documents := s.documents.filter (fun d => d.patient_id ≠ pid)
    chunks := s.chunks.filter (fun c =>
      decide (c.patient_id ≠ pid ∧
        ∀ d ∈ s.documents, d.id = c.document_id → d.patient_id ≠ pid)) }

/-- `clear_extraction_reference`: deleting an `extractions` row triggers
`document_chunks_extraction_id_fkey ... ON DELETE SET NULL`. In PostgreSQL
that referential action is an UPDATE of each referencing chunk row, so it
also fires `trigger_document_chunks_updated_at`, which sets `updated_at` to
the current instant. No chunk row is deleted. -/
def clear_extraction_reference (s : Store) (eid now : Nat) : Store :=
  { s with
    extractions := s.extractions.filter (fun e => e ≠ eid)
    chunks := s.chunks.map (fun c =>
      if c.extraction_id = some eid then
        { c with extraction_id := none, updated_at := some now }
      else c) }

/-- Store states reachable from the empty database through the subsystem's
write operations. -/
inductive Reachable : Store → Prop
  | empty : Reachable Store.empty
  | patientAdded {s} (pid : Nat) : Reachable s → Reachable (add_patient s pid)
  | documentAdded {s s'} (did pid : Nat) : Reachable s →
      add_document s did pid = some s' → Reachable s'
  | extractionAdded {s} (eid : Nat) : Reachable s →
      Reachable (add_extraction s eid)
  | chunksReplaced {s s' did pid eid meta pieces now} : Reachable s →
      replace_chunks_for_document s did pid eid meta pieces now = some s' →
      Reachable s'
  | documentDeleted {s} (did : Nat) : Reachable s →
      Reachable (delete_document s did)
  | patientDeleted {s} (pid : Nat) : Reachable s →
      Reachable (delete_patient s pid)
  | extractionDeleted {s} (eid now : Nat) : Reachable s →
      Reachable (clear_extraction_reference s eid now)

/-! ### Retrieval (`query_nearest` read path) -/

def dot : List ℤ → List ℤ → ℤ
  | a :: as, b :: bs => a * b + dot as bs
  | _, _ => 0

def normSq (v : List ℤ) : ℤ := dot v v

/-- Computable comparator deciding whether the cosine distance from `q` to
`a` is at most the cosine distance from `q` to `b`, without square roots:
sign analysis on the two inner products plus cross-multiplied squares.
`cosLE_iff` below shows it agrees with the real-valued cosine distance
whenever the squared norms involved are positive. -/
def cosLE (q a b : List ℤ) : Bool :=
  if 0 ≤ dot q a then
    if 0 ≤ dot q b then
      decide (dot q b * dot q b * normSq a ≤ dot q a * dot q a * normSq b)
    else true
  else
    if 0 ≤ dot q b then false
    else decide (dot q a * dot q a * normSq b ≤ dot q b * dot q b * normSq a)

/-- Cosine distance between two rational vectors, valued in ℝ: the metric of
pgvector's cosine operator (`vector_cosine_ops`), the expected metric per the
specification. -/
noncomputable def cosineDistance (q v : List ℤ) : ℝ :=
  1 - (dot q v : ℝ) / (Real.sqrt ((normSq q : ℤ) : ℝ) * Real.sqrt ((normSq v : ℤ) : ℝ))

def insertBy {α : Type} (le : α → α → Bool) (x : α) : List α → List α
  | [] => [x]
  | y :: ys => if le x y then x :: y :: ys else y :: insertBy le x ys

def sortBy {α : Type} (le : α → α → Bool) : List α → List α
  | [] => []
  | x :: xs => insertBy le x (sortBy le xs)

/-- Modelled from the spec: the result ordering of `query_nearest` —
ascending cosine distance, ties broken in favor of the most recently
uploaded document. -/
def chunkCmp (q : List ℤ) (a b : Chunk) : Bool :=
  if cosLE q a.embedding b.embedding then
    if cosLE q b.embedding a.embedding then
      decide (b.upload_date.getD 0 ≤ a.upload_date.getD 0)
    else true
  else false

/-- Error taxonomy of the subsystem (specification §7). -/
inductive RagError
  | invalidInput
  | generationFailure
deriving DecidableEq

/-- The candidate rows of a patient-scoped retrieval: the patient-id filter
belongs to the same query that computes distance, not a post-filter. -/
def candidates (s : Store) (pid : Nat) : List Chunk :=
  s.chunks.filter (fun c => decide (c.patient_id = pid))

/-- Modelled from the spec: `query_nearest(patient_id, query_vector, top_k)`.
The repository contains the pgvector schema — exact brute-force search, with
no approximate vector index created — but not the backend service code, so
the read path is modelled from the specification: non-positive `top_k` is
rejected with `InvalidInput`; otherwise the patient's candidate chunks are
ordered by ascending cosine distance (newest upload first among ties) and
the first `top_k` rows are returned. -/
def query_nearest (s : Store) (pid : Nat) (q : List ℤ) (top_k : Int) :
    Except RagError (List Chunk) :=
  if top_k ≤ 0 then Except.error RagError.invalidInput
  else Except.ok ((sortBy (chunkCmp q) (candidates s pid)).take top_k.toNat)

/-! ### Chat client (frontend) and orchestrator -/

def isWs (c : Char) : Bool := c.isWhitespace

/-- Whitespace trimming on a character list: drop leading whitespace, then
drop trailing whitespace. -/
def trimList (l : List Char) : List Char :=
  ((l.dropWhile isWs).reverse.dropWhile isWs).reverse

/-- Model of JavaScript `String.prototype.trim` as the frontend uses it. -/
def jsTrim (s : String) : String := ⟨trimList s.data⟩

/-- One conversation turn (`RAGChatTurn`), role `"user"` or `"assistant"`. -/
structure RAGChatTurn where
  role : String
  content : String
deriving DecidableEq

def userTurn (content : String) : RAGChatTurn :=
  { role := "user", content := content }

def assistantTurn (content : String) : RAGChatTurn :=
  { role := "assistant", content := content }

/-- `RAGChatRequest` as `sendRAGChat` consumes it: `top_k` and
`chat_history` may be absent, in which case the `??` defaults apply. -/
structure RAGChatRequest where
  question : String
  top_k : Option Int
  chat_history : Option (List RAGChatTurn)
deriving DecidableEq

/-- The JSON body `sendRAGChat` POSTs to `/patients/:id/rag/chat`. -/
structure RAGPayload where
  question : String
  top_k : Int
  chat_history : List RAGChatTurn
deriving DecidableEq

def RAG_TOP_K : Int := 6

/-- Payload construction of `sendRAGChat`
(`frontend/services/rag.service.ts`): trim the question, default `top_k` to
`RAG_TOP_K` and `chat_history` to `[]` by nullish coalescing; a present
`top_k` — zero or negative included — is forwarded unchanged. -/
def sendRAGChatPayload (body : RAGChatRequest) : RAGPayload :=
  { question := jsTrim body.question
    top_k := body.top_k.getD RAG_TOP_K
    chat_history := body.chat_history.getD [] }

/-- The request `PatientChatbot.handleSend` causes `sendRAGChat` to POST, as
a function of the `messages` state and the input text: `none` when the
empty-after-trim guard stops the send; otherwise the body carries the
trimmed question and `chat_history = [...messages, userTurn]`. -/
def patientChatbotRequest (messages : List RAGChatTurn) (input : String) :
    Option RAGPayload :=
  if jsTrim input = "" then none
  else some (sendRAGChatPayload
    { question := jsTrim input
      top_k := none
      chat_history := some (messages ++ [userTurn (jsTrim input)]) })

/-- Result of the awaited `sendRAGChat` call as `handleSend` observes it. -/
inductive SendOutcome
  | success (answer : String)
  | failure
deriving DecidableEq

/-- Effect of `PatientChatbot.handleSend` on the `messages` state: push the
user turn; on success append the assistant turn; on failure remove the
pending user turn with `prev.slice(0, -1)`. -/
def patientChatbotMessages (messages : List RAGChatTurn) (input : String)
    (outcome : SendOutcome) : List RAGChatTurn :=
  if jsTrim input = "" then messages
  else
    match outcome with
    | SendOutcome.success a =>
        messages ++ [userTurn (jsTrim input), assistantTurn a]
    | SendOutcome.failure =>
        (messages ++ [userTurn (jsTrim input)]).dropLast

/-- The `PREDEFINED_ANSWERS` quick-answer table of `MediKeepChatWidget`. -/
def predefinedAnswer (text : String) : Option String :=
  if text = "What is MediKeep?" then
    some "MediKeep is a secure medical document vault that helps you store, view, and organize your health records in one place. You can also ask questions to better understand your uploaded documents."
  else if text = "How do I view my documents?" then
    some "Go to the **Documents** tab in your dashboard to view all uploaded files, see processing status, and open a document to review details."
  else if text = "Where is my timeline?" then
    some "Open the **Timeline** tab in your dashboard to see your recent medical events and document activity in chronological order."
  else none

/-- The request `MediKeepChatWidget.handleSend` sends: empty text and
predefined quick answers never reach the network; otherwise the body carries
the trimmed text and `chat_history = messages` — only the prior turns (the
widget's locally computed `chatHistory` array is unused). -/
def mediKeepRequest (messages : List RAGChatTurn) (input : String)
    (quick : Option String) : Option RAGPayload :=
  if jsTrim (quick.getD input) = "" then none
  else if (predefinedAnswer (jsTrim (quick.getD input))).isSome then none
  else some (sendRAGChatPayload
    { question := jsTrim (quick.getD input)
      top_k := none
      chat_history := some messages })

/-- Effect of `MediKeepChatWidget.handleSend` on the `messages` state. -/
def mediKeepMessages (messages : List RAGChatTurn) (input : String)
    (quick : Option String) (outcome : SendOutcome) : List RAGChatTurn :=
  if jsTrim (quick.getD input) = "" then messages
  else
    match predefinedAnswer (jsTrim (quick.getD input)) with
    | some a =>
        messages ++ [userTurn (jsTrim (quick.getD input)), assistantTurn a]
    | none =>
      match outcome with
      | SendOutcome.success a =>
          messages ++ [userTurn (jsTrim (quick.getD input)), assistantTurn a]
      | SendOutcome.failure =>
          (messages ++ [userTurn (jsTrim (quick.getD input))]).dropLast

/-- Result of one orchestrated chat turn together with the number of
external-model calls (embedding plus answer generation) it performed. -/
structure ChatOutcome where
  result : Except RagError String
  externalCalls : Nat

/-- Modelled from the spec: the backend chat orchestrator behind
`/patients/:id/rag/chat` is not part of this repository snapshot (only its
schema and frontend callers are). Per the specification it validates the
question and `top_k` before any external call, embeds the question (one
external call), retrieves the patient's top chunks, short-circuits to a
fixed answer when the patient has no indexed content, and otherwise
delegates to the language model (a second external call), whose failure
surfaces as `GenerationFailure`. -/
def chatOrchestrate (s : Store) (pid : Nat) (question : String)
    (top_k : Int) (embed : String → List ℤ) (llm : Option String) :
    ChatOutcome :=
  if jsTrim question = "" then ⟨Except.error RagError.invalidInput, 0⟩
  else if top_k ≤ 0 then ⟨Except.error RagError.invalidInput, 0⟩
  else
    match query_nearest s pid (embed (jsTrim question)) top_k with
    | Except.error e => ⟨Except.error e, 1⟩
    | Except.ok [] => ⟨Except.ok "No documents available for this patient.", 1⟩
    | Except.ok (_ :: _) =>
      match llm with
      | some answer => ⟨Except.ok answer, 2⟩
      | none => ⟨Except.error RagError.generationFailure, 2⟩

/-! ### Concrete fixtures used by the evaluation witnesses -/

/-- An all-ones embedding of the deployed dimensionality. -/
def onesEmbedding : List ℤ := List.replicate EMBEDDING_DIM 1

def wMeta : DocMeta :=
  { document_type := some "lab_report"
    original_filename := some "cbc.pdf"
    upload_date := some 20
    extraction_method := some "ocr" }

def wPiece0 : Piece :=
  { text := "hemoglobin 13.5"
    start_token := some 0
    end_token := some 4
    tok_count := some 8
    embedding := some onesEmbedding }

def wPiece1 : Piece :=
  { text := "platelets 250"
    start_token := some 3
    end_token := some 8
    tok_count := some 8
    embedding := some onesEmbedding }

def wStore1 : Store := add_patient Store.empty 1

def wStore2 : Store :=
  { patients := [1], documents := [⟨10, 1⟩], extractions := [], chunks := []
    next_id := 0 }

def wStore3 : Store := add_extraction wStore2 5

/-- The chunk rows the witness ingestion inserts. -/
def wChunks : List Chunk :=
  buildChunks 1 10 (some 5) wMeta 0 30 0 [wPiece0, wPiece1]

def wStore4 : Store :=
  { patients := [1], documents := [⟨10, 1⟩], extractions := [5]
    chunks := wChunks, next_id := 2 }

/-- A small chunk row used by the retrieval fixtures. -/
def mkFixtureChunk (cid pid udate : Nat) (emb : List ℤ) : Chunk :=
  { id := cid
    patient_id := pid
    document_id := pid * 100
    extraction_id := none
    chunk_text := "note"
    chunk_index := 0
    chunk_start_token := none
    chunk_end_token := none
    total_tokens := none
    document_type := none
    original_filename := none
    upload_date := some udate
    extraction_method := none
    embedding := emb
    created_at := 0
    updated_at := none }

def qChunkA : Chunk := mkFixtureChunk 1 1 10 [1, 0]
def qChunkB : Chunk := mkFixtureChunk 2 1 11 [0, 1]
def qChunkC : Chunk := mkFixtureChunk 3 2 12 [3, 4]

/-- Retrieval fixture: patient 1 owns chunks A and B, patient 2 owns chunk C
whose embedding `[3, 4]` is the adversarial query vector. -/
def qStore : Store :=
  { patients := [1, 2]
    documents := [⟨100, 1⟩, ⟨200, 2⟩]
    extractions := []
    chunks := [qChunkA, qChunkB, qChunkC]
    next_id := 4 }

/-- Fixture for the extraction-deletion frame analysis. -/
def cexChunk : Chunk := { mkFixtureChunk 7 1 9 [1] with extraction_id := some 5 }

def cexStore : Store :=
  { patients := [1]
    documents := [⟨100, 1⟩]
    extractions := [5]
    chunks := [cexChunk]
    next_id := 8 }

/-- Concrete payload produced by `PatientChatbot.handleSend` on a fresh
conversation with input `"  hi  "`. -/
def pW : RAGPayload := (patientChatbotRequest [] "  hi  ").getD ⟨"", 0, []⟩

/-- Concrete payload produced by `PatientChatbot.handleSend` with one prior
turn and input `"q2"`. -/
def pW2 : RAGPayload :=
  (patientChatbotRequest [assistantTurn "prev"] "q2").getD ⟨"", 0, []⟩

/-- Concrete payload produced by `MediKeepChatWidget.handleSend` with one
prior turn and input `"q3"`. -/
def pW3 : RAGPayload :=
  (mediKeepRequest [assistantTurn "prev"] "q3" none).getD ⟨"", 0, []⟩

/-! ### Facts about inserted chunk batches -/

theorem mem_buildChunks {pid did : Nat} {eid : Option Nat} {meta : DocMeta}
    {base now : Nat} :
    ∀ {i : Nat} {ps : List Piece} {c : Chunk},
      c ∈ buildChunks pid did eid meta base now i ps →
      c.patient_id = pid ∧ c.document_id = did ∧ i ≤ c.chunk_index ∧
        ∃ p ∈ ps, c.embedding = p.embedding.getD [] := by
  intro i ps
  induction ps generalizing i with
  | nil => intro c hc; simp [buildChunks] at hc
  | cons p ps ih =>
    intro c hc
    simp only [buildChunks, List.mem_cons] at hc
    rcases hc with rfl | hc
    · exact ⟨rfl, rfl, le_refl _, p, by simp⟩
    · obtain ⟨h1, h2, h3, q, hq, h4⟩ := ih hc
      exact ⟨h1, h2, le_trans (Nat.le_succ i) h3, q, by simp [hq], h4⟩

theorem buildChunks_pairwise {pid did : Nat} {eid : Option Nat} {meta : DocMeta}
    {base now : Nat} :
    ∀ (i : Nat) (ps : List Piece),
      (buildChunks pid did eid meta base now i ps).Pairwise
        (fun a b => a.chunk_index < b.chunk_index) := by
  intro i ps
  induction ps generalizing i with
  | nil => simp [buildChunks]
  | cons p ps ih =>
    refine List.Pairwise.cons ?_ (ih (i + 1))
    intro b hb
    exact Nat.lt_of_lt_of_le (Nat.lt_succ_self i) (mem_buildChunks hb).2.2.1

theorem piecesOk_embedding {pieces : List Piece} (h : piecesOk pieces = true) :
    ∀ p ∈ pieces, ∃ v, p.embedding = some v ∧ v.length = EMBEDDING_DIM := by
  intro p hp
  have := (List.all_eq_true.mp h) p hp
  cases he : p.embedding with
  | none => rw [he] at this; simp at this
  | some v =>
    rw [he] at this
    exact ⟨v, rfl, by simpa using this⟩

/-! ### The schema invariants of every reachable store state -/

/-- Schema invariants of a store state: referential integrity of the two
NOT NULL chunk foreign keys, embedding totality at the fixed dimensionality,
and distinct `(document_id, chunk_index)` pairs. -/
def storeInv (s : Store) : Prop :=
  (∀ c ∈ s.chunks, c.document_id ∈ docIds s ∧ c.patient_id ∈ s.patients) ∧
  (∀ c ∈ s.chunks, c.embedding.length = EMBEDDING_DIM) ∧
  s.chunks.Pairwise
    (fun a b => a.document_id = b.document_id → a.chunk_index ≠ b.chunk_index)

theorem reachable_storeInv {s : Store} (h : Reachable s) : storeInv s := by
  induction h with
  | empty => exact ⟨by simp [Store.empty], by simp [Store.empty], by simp [Store.empty]⟩
  | patientAdded pid _ ih =>
    obtain ⟨fk, emb, idx⟩ := ih
    refine ⟨?_, emb, idx⟩
    intro c hc
    exact ⟨(fk c hc).1, List.mem_cons_of_mem _ (fk c hc).2⟩
  | documentAdded did pid _ heq ih =>
    obtain ⟨fk, emb, idx⟩ := ih
    unfold add_document at heq
    split at heq
    · cases heq
      refine ⟨?_, emb, idx⟩
      intro c hc
      exact ⟨List.mem_cons_of_mem _ (fk c hc).1, (fk c hc).2⟩
    · cases heq
  | extractionAdded eid _ ih => exact ih
  | chunksReplaced _ heq ih =>
    obtain ⟨fk, emb, idx⟩ := ih
    unfold replace_chunks_for_document at heq
    split at heq
    case isFalse => cases heq
    case isTrue hok =>
      cases heq
      simp only [Bool.and_eq_true] at hok
      obtain ⟨hfk, hpieces⟩ := hok
      simp only [fkOk, Bool.and_eq_true, decide_eq_true_eq] at hfk
      constructor
      · intro c hc
        simp only [List.mem_append] at hc
        rcases hc with hc | hc
        · exact fk c (List.mem_of_mem_filter hc)
        · obtain ⟨h1, h2, _, _⟩ := mem_buildChunks hc
          constructor
          · rw [h2]; exact hfk.1.2
          · rw [h1]; exact hfk.1.1
      constructor
      · intro c hc
        simp only [List.mem_append] at hc
        rcases hc with hc | hc
        · exact emb c (List.mem_of_mem_filter hc)
        · obtain ⟨_, _, _, p, hp, hce⟩ := mem_buildChunks hc
          obtain ⟨v, hv, hvlen⟩ := piecesOk_embedding hpieces p hp
          rw [hce, hv]
          simpa using hvlen
      · rw [List.pairwise_append]
        refine ⟨List.Pairwise.sublist (List.filter_sublist _) idx, ?_, ?_⟩
        · exact (buildChunks_pairwise 0 _).imp fun hlt => fun _ => Nat.ne_of_lt hlt
        · intro a ha b hb hdoc
          have ha' := List.of_mem_filter ha
          simp only [decide_eq_true_eq] at ha'
          exact absurd (hdoc.trans (mem_buildChunks hb).2.1) ha'
  | documentDeleted did _ ih =>
    obtain ⟨fk, emb, idx⟩ := ih
    refine ⟨?_, fun c hc => emb c (List.mem_of_mem_filter hc),
      List.Pairwise.sublist (List.filter_sublist _) idx⟩
    intro c hc
    have hcmem := List.mem_of_mem_filter hc
    have hcne : c.document_id ≠ did := by
      have := List.of_mem_filter hc
      simpa using this
    obtain ⟨hdoc, hpat⟩ := fk c hcmem
    refine ⟨?_, hpat⟩
    simp only [docIds, List.mem_map] at hdoc ⊢
    obtain ⟨d, hd, hdid⟩ := hdoc
    exact ⟨d, List.mem_filter.mpr ⟨hd, by simp [hdid, hcne]⟩, hdid⟩
  | patientDeleted pid _ ih =>
    obtain ⟨fk, emb, idx⟩ := ih
    simp only [storeInv, delete_patient]
    refine ⟨?_, fun c hc => emb c (List.mem_of_mem_filter hc),
      List.Pairwise.sublist (List.filter_sublist _) idx⟩
    intro c hc
    have hcmem := List.mem_of_mem_filter hc
    have hcond := List.of_mem_filter hc
    simp only [decide_eq_true_eq] at hcond
    obtain ⟨hcpat, hdocs⟩ := hcond
    obtain ⟨hdoc, hpat⟩ := fk c hcmem
    constructor
    · simp only [docIds, List.mem_map] at hdoc ⊢
      obtain ⟨d, hd, hdid⟩ := hdoc
      exact ⟨d, List.mem_filter.mpr ⟨hd, by simpa using hdocs d hd hdid⟩, hdid⟩
    · exact List.mem_filter.mpr ⟨hpat, by simpa using hcpat⟩
  | extractionDeleted eid now _ ih =>
    obtain ⟨fk, emb, idx⟩ := ih
    refine ⟨?_, ?_, ?_⟩
    · intro c hc
      simp only [clear_extraction_reference, List.mem_map] at hc
      obtain ⟨c₀, hc₀, rfl⟩ := hc
      split
      · exact fk c₀ hc₀
      · exact fk c₀ hc₀
    · intro c hc
      simp only [clear_extraction_reference, List.mem_map] at hc
      obtain ⟨c₀, hc₀, rfl⟩ := hc
      split
      · exact emb c₀ hc₀
      · exact emb c₀ hc₀
    · simp only [clear_extraction_reference]
      rw [List.pairwise_map]
      refine idx.imp_of_mem ?_
      intro a b _ _ hab
      split <;> split <;> simpa using hab

/-! ### Sorting lemmas -/

theorem insertBy_perm {α : Type} (le : α → α → Bool) (x : α) (l : List α) :
    (insertBy le x l).Perm (x :: l) := by
  induction l with
  | nil => simp [insertBy]
  | cons y ys ih =>
    simp only [insertBy]
    split
    · exact List.Perm.refl _
    · exact (ih.cons y).trans (List.Perm.swap x y ys)

theorem sortBy_perm {α : Type} (le : α → α → Bool) (l : List α) :
    (sortBy le l).Perm l := by
  induction l with
  | nil => exact List.Perm.refl _
  | cons x xs ih => exact (insertBy_perm le x (sortBy le xs)).trans (ih.cons x)

theorem mem_insertBy {α : Type} {le : α → α → Bool} {x a : α} {l : List α} :
    a ∈ insertBy le x l ↔ a = x ∨ a ∈ l := by
  rw [(insertBy_perm le x l).mem_iff]
  exact List.mem_cons

theorem pairwise_insertBy {α : Type} {le : α → α → Bool} {x : α} {l : List α}
    (total : ∀ b ∈ l, le x b = true ∨ le b x = true)
    (trans : ∀ a ∈ x :: l, ∀ b ∈ x :: l, ∀ c ∈ x :: l,
      le a b = true → le b c = true → le a c = true)
    (hl : l.Pairwise (fun a b => le a b = true)) :
    (insertBy le x l).Pairwise (fun a b => le a b = true) := by
  induction l with
  | nil => simp [insertBy]
  | cons y ys ih =>
    obtain ⟨hy, hys⟩ := List.pairwise_cons.mp hl
    simp only [insertBy]
    split
    case isTrue hxy =>
      refine List.Pairwise.cons ?_ (List.Pairwise.cons hy hys)
      intro b hb
      rcases List.mem_cons.mp hb with rfl | hb
      · exact hxy
      · exact trans x (by simp) y (by simp) b (by simp [hb]) hxy (hy b hb)
    case isFalse hxy =>
      have hyx : le y x = true :=
        (total y (by simp)).resolve_left (by simpa using hxy)
      have lift : ∀ z ∈ x :: ys, z ∈ x :: y :: ys := by
        intro z hz
        rcases List.mem_cons.mp hz with rfl | hz
        · simp
        · simp [hz]
      refine List.Pairwise.cons ?_
        (ih (fun b hb => total b (by simp [hb]))
          (fun a ha b hb c hc => trans a (lift a ha) b (lift b hb) c (lift c hc))
          hys)
      intro b hb
      rcases mem_insertBy.mp hb with rfl | hb
      · exact hyx
      · exact hy b hb

theorem pairwise_sortBy {α : Type} {le : α → α → Bool} {l : List α}
    (total : ∀ a ∈ l, ∀ b ∈ l, le a b = true ∨ le b a = true)
    (trans : ∀ a ∈ l, ∀ b ∈ l, ∀ c ∈ l,
      le a b = true → le b c = true → le a c = true) :
    (sortBy le l).Pairwise (fun a b => le a b = true) := by
  induction l with
  | nil => simp [sortBy]
  | cons x xs ih =>
    have hmem : ∀ z ∈ sortBy le xs, z ∈ xs :=
      fun z hz => (sortBy_perm le xs).mem_iff.mp hz
    have lift : ∀ z ∈ x :: sortBy le xs, z ∈ x :: xs := by
      intro z hz
      rcases List.mem_cons.mp hz with rfl | hz
      · simp
      · simp [hmem z hz]
    refine pairwise_insertBy
      (fun b hb => total x (by simp) b (by simp [hmem b hb]))
      (fun a ha b hb c hc => trans a (lift a ha) b (lift b hb) c (lift c hc))
      (ih (fun a ha b hb => total a (by simp [ha]) b (by simp [hb]))
        (fun a ha b hb c hc =>
          trans a (by simp [ha]) b (by simp [hb]) c (by simp [hc])))

theorem pairwise_take_drop {α : Type} {r : α → α → Prop} {l : List α}
    (h : l.Pairwise r) (n : Nat) :
    ∀ a ∈ l.take n, ∀ b ∈ l.drop n, r a b := by
  rw [← List.take_append_drop n l] at h
  exact (List.pairwise_append.mp h).2.2

/-! ### The comparator agrees with real cosine distance -/

theorem normSq_nonneg (v : List ℤ) : 0 ≤ normSq v := by
  unfold normSq
  induction v with
  | nil => simp [dot]
  | cons a as ih =>
    simp only [dot]
    exact add_nonneg (mul_self_nonneg a) ih

theorem mul_sqrt_eq {x n : ℝ} (hx : 0 ≤ x) :
    x * Real.sqrt n = Real.sqrt (x * x * n) := by
  rw [Real.sqrt_mul (mul_self_nonneg x) n, Real.sqrt_mul_self hx]

theorem cosLE_iff {q a b : List ℤ} (hq : 0 < normSq q) (ha : 0 < normSq a)
    (hb : 0 < normSq b) :
    cosLE q a b = true ↔ cosineDistance q a ≤ cosineDistance q b := by
  have hqR : (0 : ℝ) < ((normSq q : ℤ) : ℝ) := by exact_mod_cast hq
  have haR : (0 : ℝ) < ((normSq a : ℤ) : ℝ) := by exact_mod_cast ha
  have hbR : (0 : ℝ) < ((normSq b : ℤ) : ℝ) := by exact_mod_cast hb
  have hsq : 0 < Real.sqrt ((normSq q : ℤ) : ℝ) := Real.sqrt_pos.mpr hqR
  have hsa : 0 < Real.sqrt ((normSq a : ℤ) : ℝ) := Real.sqrt_pos.mpr haR
  have hsb : 0 < Real.sqrt ((normSq b : ℤ) : ℝ) := Real.sqrt_pos.mpr hbR
  have key : (cosineDistance q a ≤ cosineDistance q b) ↔
      ((dot q b : ℤ) : ℝ) * Real.sqrt ((normSq a : ℤ) : ℝ) ≤
        ((dot q a : ℤ) : ℝ) * Real.sqrt ((normSq b : ℤ) : ℝ) := by
    unfold cosineDistance
    rw [sub_le_sub_iff_left,
      div_le_div_iff₀ (mul_pos hsq hsb) (mul_pos hsq hsa)]
    rw [show ((dot q b : ℤ) : ℝ) * (Real.sqrt ((normSq q : ℤ) : ℝ) * Real.sqrt ((normSq a : ℤ) : ℝ))
        = Real.sqrt ((normSq q : ℤ) : ℝ) * (((dot q b : ℤ) : ℝ) * Real.sqrt ((normSq a : ℤ) : ℝ)) from by ring,
      show ((dot q a : ℤ) : ℝ) * (Real.sqrt ((normSq q : ℤ) : ℝ) * Real.sqrt ((normSq b : ℤ) : ℝ))
        = Real.sqrt ((normSq q : ℤ) : ℝ) * (((dot q a : ℤ) : ℝ) * Real.sqrt ((normSq b : ℤ) : ℝ)) from by ring]
    exact mul_le_mul_left hsq
  rw [key]
  unfold cosLE
  split_ifs with hx hy hy
  · have hxR : (0 : ℝ) ≤ ((dot q a : ℤ) : ℝ) := by exact_mod_cast hx
    have hyR : (0 : ℝ) ≤ ((dot q b : ℤ) : ℝ) := by exact_mod_cast hy
    rw [mul_sqrt_eq hxR, mul_sqrt_eq hyR,
      Real.sqrt_le_sqrt_iff (by positivity)]
    simp only [decide_eq_true_eq]
    constructor
    · intro h; exact_mod_cast h
    · intro h; exact_mod_cast h
  · have hxR : (0 : ℝ) ≤ ((dot q a : ℤ) : ℝ) := by exact_mod_cast hx
    have hyR : ((dot q b : ℤ) : ℝ) < 0 := by
      have : dot q b < 0 := lt_of_not_ge hy
      exact_mod_cast this
    simp only [true_iff]
    exact le_trans (le_of_lt (mul_neg_of_neg_of_pos hyR hsa))
      (mul_nonneg hxR (le_of_lt hsb))
  · have hxR : ((dot q a : ℤ) : ℝ) < 0 := by
      have : dot q a < 0 := lt_of_not_ge hx
      exact_mod_cast this
    have hyR : (0 : ℝ) ≤ ((dot q b : ℤ) : ℝ) := by exact_mod_cast hy
    simp only [false_iff, not_le]
    exact lt_of_lt_of_le (mul_neg_of_neg_of_pos hxR hsb)
      (mul_nonneg hyR (le_of_lt hsa))
  · have hxR : ((dot q a : ℤ) : ℝ) < 0 := by
      have : dot q a < 0 := lt_of_not_ge hx
      exact_mod_cast this
    have hyR : ((dot q b : ℤ) : ℝ) < 0 := by
      have : dot q b < 0 := lt_of_not_ge hy
      exact_mod_cast this
    have flip : (((dot q b : ℤ) : ℝ) * Real.sqrt ((normSq a : ℤ) : ℝ) ≤
        ((dot q a : ℤ) : ℝ) * Real.sqrt ((normSq b : ℤ) : ℝ)) ↔
        (-((dot q a : ℤ) : ℝ)) * Real.sqrt ((normSq b : ℤ) : ℝ) ≤
          (-((dot q b : ℤ) : ℝ)) * Real.sqrt ((normSq a : ℤ) : ℝ) := by
      constructor <;> intro h <;> nlinarith [h]
    rw [flip, mul_sqrt_eq (by linarith : (0:ℝ) ≤ -((dot q a : ℤ) : ℝ)),
      mul_sqrt_eq (by linarith : (0:ℝ) ≤ -((dot q b : ℤ) : ℝ)),
      neg_mul_neg, neg_mul_neg,
      Real.sqrt_le_sqrt_iff (mul_nonneg (mul_self_nonneg _) (le_of_lt haR))]
    simp only [decide_eq_true_eq]
    constructor
    · intro h; exact_mod_cast h
    · intro h; exact_mod_cast h

theorem cosLE_total (q a b : List ℤ) :
    cosLE q a b = true ∨ cosLE q b a = true := by
  by_cases hx : 0 ≤ dot q a <;> by_cases hy : 0 ≤ dot q b
  · rcases le_total (dot q b * dot q b * normSq a) (dot q a * dot q a * normSq b)
      with h | h
    · left; simp [cosLE, hx, hy, h]
    · right; simp [cosLE, hx, hy, h]
  · left; simp [cosLE, hx, hy]
  · right; simp [cosLE, hx, hy]
  · rcases le_total (dot q a * dot q a * normSq b) (dot q b * dot q b * normSq a)
      with h | h
    · left; simp [cosLE, hx, hy, h]
    · right; simp [cosLE, hx, hy, h]

theorem cosLE_trans {q a b c : List ℤ} (hq : 0 < normSq q) (ha : 0 < normSq a)
    (hb : 0 < normSq b) (hc : 0 < normSq c)
    (h1 : cosLE q a b = true) (h2 : cosLE q b c = true) :
    cosLE q a c = true :=
  (cosLE_iff hq ha hc).mpr
    (le_trans ((cosLE_iff hq ha hb).mp h1) ((cosLE_iff hq hb hc).mp h2))

theorem chunkCmp_true_iff (q : List ℤ) (a b : Chunk) :
    chunkCmp q a b = true ↔
      cosLE q a.embedding b.embedding = true ∧
        (cosLE q b.embedding a.embedding = false ∨
          b.upload_date.getD 0 ≤ a.upload_date.getD 0) := by
  unfold chunkCmp
  split_ifs with h1 h2
  · simp [h1, h2]
  · simp [h1, h2]
  · simp [h1]

theorem chunkCmp_total (q : List ℤ) (a b : Chunk) :
    chunkCmp q a b = true ∨ chunkCmp q b a = true := by
  by_cases hA : cosLE q a.embedding b.embedding = true
  · by_cases hB : cosLE q b.embedding a.embedding = true
    · rcases Nat.le_total (b.upload_date.getD 0) (a.upload_date.getD 0) with h | h
      · left; exact (chunkCmp_true_iff q a b).mpr ⟨hA, Or.inr h⟩
      · right; exact (chunkCmp_true_iff q b a).mpr ⟨hB, Or.inr h⟩
    · left
      exact (chunkCmp_true_iff q a b).mpr ⟨hA, Or.inl (Bool.eq_false_iff.mpr hB)⟩
  · have hB := (cosLE_total q a.embedding b.embedding).resolve_left hA
    right
    exact (chunkCmp_true_iff q b a).mpr ⟨hB, Or.inl (Bool.eq_false_iff.mpr hA)⟩

theorem chunkCmp_trans {q : List ℤ} {a b c : Chunk} (hq : 0 < normSq q)
    (ha : 0 < normSq a.embedding) (hb : 0 < normSq b.embedding)
    (hc : 0 < normSq c.embedding)
    (h1 : chunkCmp q a b = true) (h2 : chunkCmp q b c = true) :
    chunkCmp q a c = true := by
  obtain ⟨hab, hd1⟩ := (chunkCmp_true_iff q a b).mp h1
  obtain ⟨hbc, hd2⟩ := (chunkCmp_true_iff q b c).mp h2
  refine (chunkCmp_true_iff q a c).mpr ⟨cosLE_trans hq ha hb hc hab hbc, ?_⟩
  by_cases hca : cosLE q c.embedding a.embedding = true
  · have hcb : cosLE q c.embedding b.embedding = true :=
      cosLE_trans hq hc ha hb hca hab
    have hba : cosLE q b.embedding a.embedding = true :=
      cosLE_trans hq hb hc ha hbc hca
    have r1 : b.upload_date.getD 0 ≤ a.upload_date.getD 0 := by
      rcases hd1 with h | h
      · rw [h] at hba; exact absurd hba (by simp)
      · exact h
    have r2 : c.upload_date.getD 0 ≤ b.upload_date.getD 0 := by
      rcases hd2 with h | h
      · rw [h] at hcb; exact absurd hcb (by simp)
      · exact h
    exact Or.inr (le_trans r2 r1)
  · exact Or.inl (Bool.eq_false_iff.mpr hca)

/-! ### Trimming lemmas -/

theorem dropWhile_dropWhile {α : Type} (p : α → Bool) (l : List α) :
    (l.dropWhile p).dropWhile p = l.dropWhile p := by
  induction l with
  | nil => simp
  | cons a as ih =>
    by_cases h : p a = true
    · simp [List.dropWhile_cons, h, ih]
    · simp [List.dropWhile_cons, h]

theorem head_dropWhile_false {α : Type} (p : α → Bool) (l : List α) :
    ∀ a, (l.dropWhile p).head? = some a → p a = false := by
  induction l with
  | nil => intro a h; simp at h
  | cons x xs ih =>
    intro a h
    by_cases hx : p x = true
    · rw [List.dropWhile_cons, if_pos hx] at h
      exact ih a h
    · rw [List.dropWhile_cons, if_neg hx] at h
      simp only [List.head?_cons, Option.some.injEq] at h
      rw [← h]
      exact Bool.eq_false_iff.mpr hx

theorem dropWhile_of_head_false {α : Type} (p : α → Bool) (l : List α)
    (h : ∀ a, l.head? = some a → p a = false) : l.dropWhile p = l := by
  cases l with
  | nil => rfl
  | cons x xs =>
    rw [List.dropWhile_cons, if_neg]
    simp [h x rfl]

theorem dropWhile_suffix_ex {α : Type} (p : α → Bool) (l : List α) :
    ∃ t, t ++ l.dropWhile p = l := by
  induction l with
  | nil => exact ⟨[], rfl⟩
  | cons x xs ih =>
    by_cases hx : p x = true
    · obtain ⟨t, ht⟩ := ih
      exact ⟨x :: t, by rw [List.dropWhile_cons, if_pos hx]; simp [ht]⟩
    · exact ⟨[], by rw [List.dropWhile_cons, if_neg hx]; rfl⟩

theorem trimList_idem (l : List Char) : trimList (trimList l) = trimList l := by
  unfold trimList
  obtain ⟨t, ht⟩ := dropWhile_suffix_ex isWs (l.dropWhile isWs).reverse
  have hpre :
      ((l.dropWhile isWs).reverse.dropWhile isWs).reverse ++ t.reverse
        = l.dropWhile isWs := by
    rw [← List.reverse_append, ht, List.reverse_reverse]
  have h1 :
      ((l.dropWhile isWs).reverse.dropWhile isWs).reverse.dropWhile isWs
        = ((l.dropWhile isWs).reverse.dropWhile isWs).reverse := by
    apply dropWhile_of_head_false
    intro a ha
    apply head_dropWhile_false isWs l a
    rw [← hpre, List.head?_append, ha]
    rfl
  rw [h1, List.reverse_reverse, dropWhile_dropWhile]

theorem jsTrim_idem (s : String) : jsTrim (jsTrim s) = jsTrim s := by
  show (⟨trimList (trimList s.data)⟩ : String) = ⟨trimList s.data⟩
  rw [trimList_idem]

/-! ### Claim C1 -/

/-- Claim C1: patient isolation of retrieval — for every store, patient
scope `pid`, query vector (including one chosen equal to another patient's
stored embedding) and `top_k`, every chunk returned by `query_nearest`
scoped to `pid` has `patient_id = pid`, so a chunk owned by any other
patient is never returned. -/
theorem query_nearest_patient_isolation
    (s : Store) (pid : Nat) (q : List ℤ) (top_k : Int) (res : List Chunk)
    (h : query_nearest s pid q top_k = Except.ok res) :
    ∀ c ∈ res, c.patient_id = pid := by
  unfold query_nearest at h
  split at h
  · cases h
  · injection h with h
    subst h
    intro c hc
    have h1 : c ∈ sortBy (chunkCmp q) (candidates s pid) :=
      List.take_subset _ _ hc
    have h2 : c ∈ candidates s pid := (sortBy_perm _ _).mem_iff.mp h1
    have h3 := List.of_mem_filter h2
    simpa using h3

/-- Evaluation witness for C1: the query vector is exactly patient 2's
stored embedding `[3, 4]` (chunk `qChunkC`), yet the query scoped to
patient 1 returns only patient 1's chunks. -/
theorem query_nearest_patient_isolation_witness :
    (query_nearest qStore 1 [3, 4] 5 = Except.ok [qChunkB, qChunkA] ∧
      qChunkC.embedding = [3, 4] ∧ qChunkC.patient_id = 2 ∧
      qChunkC ∉ [qChunkB, qChunkA] ∧ qChunkB ∈ [qChunkB, qChunkA]) ∧
    qChunkB.patient_id = 1 :=
  ⟨⟨rfl, rfl, rfl, by decide, by simp⟩,
    query_nearest_patient_isolation qStore 1 [3, 4] 5 [qChunkB, qChunkA]
      rfl qChunkB (by simp)⟩

/-! ### Claim C2 -/

/-- Claim C2: cascade delete — on every reachable store state, deleting a
document removes every chunk whose `document_id` references it, deleting a
patient removes every chunk whose `patient_id` references it, and no
reachable state contains a chunk whose owning document or patient is
missing; the deletions are the modelled `ON DELETE CASCADE` actions of the
schema, with no application-level cleanup step. -/
theorem cascade_delete_consistency (s : Store) (h : Reachable s) :
    (∀ did, ∀ c ∈ (delete_document s did).chunks, c.document_id ≠ did) ∧
    (∀ pid, ∀ c ∈ (delete_patient s pid).chunks, c.patient_id ≠ pid) ∧
    (∀ c ∈ s.chunks, c.document_id ∈ docIds s ∧ c.patient_id ∈ s.patients) := by
  refine ⟨?_, ?_, (reachable_storeInv h).1⟩
  · intro did c hc
    simp only [delete_document] at hc
    have := List.of_mem_filter hc
    simpa using this
  · intro pid c hc
    simp only [delete_patient] at hc
    have := List.of_mem_filter hc
    simp only [decide_eq_true_eq] at this
    exact this.1

theorem replace_w_eq :
    replace_chunks_for_document wStore3 10 1 (some 5) wMeta
      [wPiece0, wPiece1] 30 = some wStore4 := by
  have hlen : (onesEmbedding.length == EMBEDDING_DIM) = true := by
    rw [onesEmbedding, List.length_replicate]
    exact beq_self_eq_true _
  have hpok : piecesOk [wPiece0, wPiece1] = true := by
    show ((onesEmbedding.length == EMBEDDING_DIM) &&
      ((onesEmbedding.length == EMBEDDING_DIM) && true)) = true
    rw [hlen]
    rfl
  have hfk : fkOk wStore3 10 1 (some 5) = true := by decide
  have hcond : (fkOk wStore3 10 1 (some 5) &&
      piecesOk [wPiece0, wPiece1]) = true := by
    rw [Bool.and_eq_true]
    exact ⟨hfk, hpok⟩
  unfold replace_chunks_for_document
  rw [if_pos hcond]
  rfl

theorem wStore4_reachable : Reachable wStore4 :=
  @Reachable.chunksReplaced wStore3 wStore4 10 1 (some 5) wMeta
    [wPiece0, wPiece1] 30
    (Reachable.extractionAdded 5
      (Reachable.documentAdded 10 1
        (Reachable.patientAdded 1 Reachable.empty) rfl))
    replace_w_eq

/-- Evaluation witness for C2 at the concrete reachable state `wStore4`
(one patient, one document, one extraction, two inserted chunks). -/
theorem cascade_delete_consistency_witness :
    Reachable wStore4 ∧
      ((∀ did, ∀ c ∈ (delete_document wStore4 did).chunks,
          c.document_id ≠ did) ∧
       (∀ pid, ∀ c ∈ (delete_patient wStore4 pid).chunks,
          c.patient_id ≠ pid) ∧
       (∀ c ∈ wStore4.chunks,
          c.document_id ∈ docIds wStore4 ∧ c.patient_id ∈ wStore4.patients)) :=
  ⟨wStore4_reachable, cascade_delete_consistency wStore4 wStore4_reachable⟩

/-! ### Claim C3 -/

/-- Counterexample to claim C3 as stated: deleting an Extraction is not a
pure reference clear. At the concrete store `cexStore`, deleting extraction
5 at instant 7 clears `extraction_id` on the referencing chunk but also
changes its `updated_at` field from null to 7, because the `SET NULL`
referential action is an UPDATE that fires the `updated_at` trigger. -/
theorem extraction_clear_counterexample :
    cexChunk.updated_at = none ∧
      ∃ c ∈ (clear_extraction_reference cexStore 5 7).chunks,
        c.id = cexChunk.id ∧ c.extraction_id = none ∧
          c.updated_at = some 7 := by
  refine ⟨rfl, { cexChunk with extraction_id := none, updated_at := some 7 },
    ?_, rfl, rfl, rfl⟩
  decide

/-- Claim C3 (amended): deleting an Extraction sets `extraction_id` to null
on each referencing chunk and — because the `ON DELETE SET NULL` action is
an UPDATE that fires `trigger_document_chunks_updated_at` — refreshes that
chunk's `updated_at`; the chunk row is not deleted, every other field
(id, ownership, `chunk_text`, `chunk_index`, `embedding`, `created_at`)
is unchanged, and chunks not referencing the deleted extraction are
untouched. -/
theorem extraction_clear_frame (s : Store) (eid now : Nat) :
    ((clear_extraction_reference s eid now).chunks.length
        = s.chunks.length) ∧
    (∀ c ∈ s.chunks, c.extraction_id = some eid →
      { c with extraction_id := none, updated_at := some now } ∈
        (clear_extraction_reference s eid now).chunks) ∧
    (∀ c ∈ s.chunks, c.extraction_id ≠ some eid →
      c ∈ (clear_extraction_reference s eid now).chunks) ∧
    (∀ c' ∈ (clear_extraction_reference s eid now).chunks,
      c'.extraction_id ≠ some eid ∧
        ∃ c ∈ s.chunks, c'.id = c.id ∧ c'.patient_id = c.patient_id ∧
          c'.document_id = c.document_id ∧ c'.chunk_text = c.chunk_text ∧
          c'.chunk_index = c.chunk_index ∧ c'.embedding = c.embedding ∧
          c'.created_at = c.created_at) := by
  refine ⟨by simp [clear_extraction_reference], ?_, ?_, ?_⟩
  · intro c hc hce
    simp only [clear_extraction_reference, List.mem_map]
    exact ⟨c, hc, by rw [if_pos hce]⟩
  · intro c hc hce
    simp only [clear_extraction_reference, List.mem_map]
    exact ⟨c, hc, by rw [if_neg hce]⟩
  · intro c' hc'
    simp only [clear_extraction_reference, List.mem_map] at hc'
    obtain ⟨c, hc, heq⟩ := hc'
    by_cases hce : c.extraction_id = some eid
    · rw [if_pos hce] at heq
      subst heq
      exact ⟨by simp, c, hc, rfl, rfl, rfl, rfl, rfl, rfl, rfl⟩
    · rw [if_neg hce] at heq
      subst heq
      exact ⟨hce, c, hc, rfl, rfl, rfl, rfl, rfl, rfl, rfl⟩

/-- Evaluation witness for the amended C3 at the concrete store
`cexStore`. -/
theorem extraction_clear_frame_witness :
    (cexChunk ∈ cexStore.chunks ∧ cexChunk.extraction_id = some 5) ∧
      { cexChunk with extraction_id := none, updated_at := some 7 } ∈
        (clear_extraction_reference cexStore 5 7).chunks :=
  ⟨⟨by decide, rfl⟩,
    (extraction_clear_frame cexStore 5 7).2.1 cexChunk (by decide) rfl⟩

/-! ### Claim C4 -/

/-- Claim C4: embedding totality and fixed dimensionality — in every
reachable store state every chunk row carries an embedding (the field is
non-optional, the column NOT NULL) of the single fixed dimensionality 3072,
and an ingestion batch containing a piece whose embedding is not yet
available is rejected outright, so no chunk is inserted before its
embedding exists. -/
theorem embedding_totality_and_dimensionality (s : Store) (h : Reachable s) :
    (∀ c ∈ s.chunks, c.embedding.length = EMBEDDING_DIM) ∧
    (∀ did pid eid meta pieces now, (∃ p ∈ pieces, p.embedding = none) →
      replace_chunks_for_document s did pid eid meta pieces now = none) := by
  refine ⟨(reachable_storeInv h).2.1, ?_⟩
  rintro did pid eid meta pieces now ⟨p, hp, hpe⟩
  have hno : ¬ (fkOk s did pid eid && piecesOk pieces) = true := by
    intro hcond
    have h2 : piecesOk pieces = true := by
      rw [Bool.and_eq_true] at hcond
      exact hcond.2
    have h3 := List.all_eq_true.mp h2 p hp
    rw [hpe] at h3
    simp at h3
  unfold replace_chunks_for_document
  rw [if_neg hno]

/-- Evaluation witness for C4 at the reachable state `wStore4`, with a
rejected batch whose single piece has no embedding. -/
theorem embedding_totality_witness :
    Reachable wStore4 ∧
      ((∀ c ∈ wStore4.chunks, c.embedding.length = EMBEDDING_DIM) ∧
       (∀ did pid eid meta pieces now,
          (∃ p ∈ pieces, p.embedding = none) →
            replace_chunks_for_document wStore4 did pid eid meta pieces now
              = none)) :=
  ⟨wStore4_reachable,
    embedding_totality_and_dimensionality wStore4 wStore4_reachable⟩

/-! ### Claim C5 -/

/-- Claim C5: chunk-index uniqueness per document — in every reachable
store state, no two chunks of the same document share a `chunk_index`:
all `(document_id, chunk_index)` pairs are distinct. -/
theorem chunk_index_uniqueness (s : Store) (h : Reachable s) :
    s.chunks.Pairwise (fun a b =>
      a.document_id = b.document_id → a.chunk_index ≠ b.chunk_index) :=
  (reachable_storeInv h).2.2

/-- Evaluation witness for C5 at the reachable state `wStore4`, whose two
chunks share a document. -/
theorem chunk_index_uniqueness_witness :
    Reachable wStore4 ∧
      wStore4.chunks.Pairwise (fun a b =>
        a.document_id = b.document_id → a.chunk_index ≠ b.chunk_index) :=
  ⟨wStore4_reachable, chunk_index_uniqueness wStore4 wStore4_reachable⟩

/-! ### Claim C6 -/

/-- Claim C6: exact top-K correctness — for every patient scope, query
vector and accepted `top_k`, the default exact (brute-force) search of
`query_nearest` returns the `top_k` candidate chunks of smallest cosine
distance to the query, in ascending distance order: the result is sorted by
cosine distance, has length `min top_k (number of candidates)`, and splits
the candidate multiset so that every returned chunk is at least as close as
every omitted one. (Positivity of the squared norms is assumed, as cosine
distance is undefined on zero vectors.) -/
theorem query_nearest_topk_exact (s : Store) (pid : Nat) (q : List ℤ)
    (top_k : Int) (res : List Chunk)
    (h : query_nearest s pid q top_k = Except.ok res)
    (hq : 0 < normSq q)
    (hpos : ∀ c ∈ candidates s pid, 0 < normSq c.embedding) :
    res.length = min top_k.toNat (candidates s pid).length ∧
    res.Pairwise (fun a b =>
      cosineDistance q a.embedding ≤ cosineDistance q b.embedding) ∧
    ∃ rest, (res ++ rest).Perm (candidates s pid) ∧
      ∀ a ∈ res, ∀ b ∈ rest,
        cosineDistance q a.embedding ≤ cosineDistance q b.embedding := by
  unfold query_nearest at h
  split at h
  · cases h
  · injection h with h
    subst h
    have hperm : (sortBy (chunkCmp q) (candidates s pid)).Perm
        (candidates s pid) := sortBy_perm _ _
    have hmemL : ∀ z ∈ sortBy (chunkCmp q) (candidates s pid),
        z ∈ candidates s pid := fun z hz => hperm.mem_iff.mp hz
    have hpairCmp : (sortBy (chunkCmp q) (candidates s pid)).Pairwise
        (fun a b => chunkCmp q a b = true) :=
      pairwise_sortBy
        (fun a _ b _ => chunkCmp_total q a b)
        (fun a ha b hb c hc h1 h2 =>
          chunkCmp_trans hq (hpos a ha) (hpos b hb) (hpos c hc) h1 h2)
    have hpairDist : (sortBy (chunkCmp q) (candidates s pid)).Pairwise
        (fun a b =>
          cosineDistance q a.embedding ≤ cosineDistance q b.embedding) := by
      refine hpairCmp.imp_of_mem ?_
      intro a b ha hb hab
      exact (cosLE_iff hq (hpos a (hmemL a ha)) (hpos b (hmemL b hb))).mp
        ((chunkCmp_true_iff q a b).mp hab).1
    refine ⟨?_, ?_, (sortBy (chunkCmp q) (candidates s pid)).drop top_k.toNat,
      ?_, ?_⟩
    · rw [List.length_take, hperm.length_eq]
    · exact List.Pairwise.sublist (List.take_sublist _ _) hpairDist
    · rw [List.take_append_drop]
      exact hperm
    · exact pairwise_take_drop hpairDist top_k.toNat

/-- Evaluation witness for C6: among patient 1's candidates with embeddings
`[1, 0]` and `[0, 1]` and the query `[3, 4]`, the single nearest chunk by
cosine distance is `qChunkB`. -/
theorem query_nearest_topk_witness :
    (query_nearest qStore 1 [3, 4] 1 = Except.ok [qChunkB] ∧
      0 < normSq [3, 4] ∧
      (∀ c ∈ candidates qStore 1, 0 < normSq c.embedding)) ∧
    ([qChunkB].length = min (Int.toNat 1) (candidates qStore 1).length ∧
      List.Pairwise (fun a b =>
        cosineDistance [3, 4] a.embedding ≤ cosineDistance [3, 4] b.embedding)
        [qChunkB] ∧
      ∃ rest, ([qChunkB] ++ rest).Perm (candidates qStore 1) ∧
        ∀ a ∈ [qChunkB], ∀ b ∈ rest,
          cosineDistance [3, 4] a.embedding
            ≤ cosineDistance [3, 4] b.embedding) :=
  ⟨⟨rfl, by decide, by decide⟩,
    query_nearest_topk_exact qStore 1 [3, 4] 1 [qChunkB] rfl (by decide)
      (by decide)⟩

/-! ### Claim C7 -/

/-- Claim C7: empty-question rejection — a chat invocation whose question
trims to empty is rejected with `InvalidInput` before any external call
(the orchestrator's external-call count is 0), the chat widget sends no
request at all for empty-after-trim input, and every request the widgets
do send carries the trimmed, non-empty question text. -/
theorem empty_question_rejection :
    (∀ s pid question top_k embed llm, jsTrim question = "" →
      chatOrchestrate s pid question top_k embed llm =
        ⟨Except.error RagError.invalidInput, 0⟩) ∧
    (∀ messages input, jsTrim input = "" →
      patientChatbotRequest messages input = none) ∧
    (∀ messages input p, patientChatbotRequest messages input = some p →
      p.question = jsTrim input ∧ p.question ≠ "") ∧
    (∀ messages input quick p, mediKeepRequest messages input quick = some p →
      p.question = jsTrim (quick.getD input) ∧ p.question ≠ "") := by
  refine ⟨?_, ?_, ?_, ?_⟩
  · intro s pid question top_k embed llm h
    unfold chatOrchestrate
    rw [if_pos h]
  · intro messages input h
    unfold patientChatbotRequest
    rw [if_pos h]
  · intro messages input p hp
    unfold patientChatbotRequest at hp
    split at hp
    · cases hp
    case isFalse hne =>
      injection hp with hp
      subst hp
      refine ⟨jsTrim_idem input, ?_⟩
      rw [show (sendRAGChatPayload
          { question := jsTrim input, top_k := none,
            chat_history := some (messages ++ [userTurn (jsTrim input)]) }).question
          = jsTrim (jsTrim input) from rfl, jsTrim_idem input]
      exact hne
  · intro messages input quick p hp
    unfold mediKeepRequest at hp
    split at hp
    · cases hp
    case isFalse hne =>
      split at hp
      · cases hp
      · injection hp with hp
        subst hp
        refine ⟨jsTrim_idem (quick.getD input), ?_⟩
        rw [show (sendRAGChatPayload
            { question := jsTrim (quick.getD input), top_k := none,
              chat_history := some messages }).question
            = jsTrim (jsTrim (quick.getD input)) from rfl,
          jsTrim_idem (quick.getD input)]
        exact hne

/-- Evaluation witness for C7: a whitespace-only question is rejected by
the orchestrator with zero external calls, and the concrete request for
input `"  hi  "` carries the trimmed question `"hi"`. -/
theorem empty_question_rejection_witness :
    (jsTrim "   " = "" ∧
      chatOrchestrate qStore 1 "   " 6 (fun _ => [1, 0]) none =
        ⟨Except.error RagError.invalidInput, 0⟩) ∧
    (patientChatbotRequest [] "  hi  " = some pW ∧
      (pW.question = jsTrim "  hi  " ∧ pW.question ≠ "") ∧
      pW.question = "hi") :=
  ⟨⟨by decide, empty_question_rejection.1 qStore 1 "   " 6 (fun _ => [1, 0])
      none (by decide)⟩,
    ⟨rfl, empty_question_rejection.2.2.1 [] "  hi  " pW rfl, by decide⟩⟩

/-! ### Claim C8 -/

/-- Claim C8: chat failure atomicity — when the answer-generation call
fails, both chat widgets restore the `messages` state to exactly the
history from before the send: the pending user turn is removed and no
earlier turn is lost or altered. -/
theorem chat_failure_atomicity :
    (∀ messages input,
      patientChatbotMessages messages input SendOutcome.failure = messages) ∧
    (∀ messages input quick,
      predefinedAnswer (jsTrim (quick.getD input)) = none →
        mediKeepMessages messages input quick SendOutcome.failure
          = messages) := by
  constructor
  · intro messages input
    unfold patientChatbotMessages
    split
    · rfl
    · exact List.dropLast_concat
  · intro messages input quick h
    unfold mediKeepMessages
    split
    · rfl
    · rw [h]
      exact List.dropLast_concat

/-- Evaluation witness for C8 on a concrete two-turn history. -/
theorem chat_failure_atomicity_witness :
    (patientChatbotMessages [userTurn "a", assistantTurn "b"] " q "
        SendOutcome.failure = [userTurn "a", assistantTurn "b"]) ∧
    (predefinedAnswer (jsTrim ((none : Option String).getD " q ")) = none ∧
      mediKeepMessages [userTurn "a"] " q " none SendOutcome.failure
        = [userTurn "a"]) :=
  ⟨chat_failure_atomicity.1 [userTurn "a", assistantTurn "b"] " q ",
    ⟨by decide, chat_failure_atomicity.2 [userTurn "a"] " q " none
      (by decide)⟩⟩

/-! ### Claim C9 -/

/-- Counterexample to claim C9 as stated: in `PatientChatbot`, the new
question also appears as the last element of `chat_history`. On the
concrete send of `"q"` from an empty conversation, the posted body has
`chat_history = [userTurn "q"]`, whose last element is the user turn
carrying exactly the `question` field. -/
theorem history_question_counterexample :
    ∃ p, patientChatbotRequest [] "q" = some p ∧
      p.chat_history ≠ ([] : List RAGChatTurn) ∧
      p.chat_history.getLast? = some (userTurn p.question) := by
  refine ⟨_, rfl, by decide, by decide⟩

/-- Claim C9 (amended): `MediKeepChatWidget` sends `chat_history` equal to
exactly the turns preceding the new question, with the question carried
only in the `question` field; `PatientChatbot` instead sends
`chat_history` equal to the preceding turns with the new user turn
appended, so there the question also appears as the last element of
`chat_history`. -/
theorem history_question_separation :
    (∀ messages input p, patientChatbotRequest messages input = some p →
      p.question = jsTrim input ∧
        p.chat_history = messages ++ [userTurn p.question]) ∧
    (∀ messages input quick p, mediKeepRequest messages input quick = some p →
      p.question = jsTrim (quick.getD input) ∧ p.chat_history = messages) := by
  constructor
  · intro messages input p hp
    unfold patientChatbotRequest at hp
    split at hp
    · cases hp
    · injection hp with hp
      subst hp
      refine ⟨jsTrim_idem input, ?_⟩
      show messages ++ [userTurn (jsTrim input)]
        = messages ++ [userTurn (jsTrim (jsTrim input))]
      rw [jsTrim_idem input]
  · intro messages input quick p hp
    unfold mediKeepRequest at hp
    split at hp
    · cases hp
    · split at hp
      · cases hp
      · injection hp with hp
        subst hp
        exact ⟨jsTrim_idem (quick.getD input), rfl⟩

/-- Evaluation witness for the amended C9 on concrete one-turn histories:
PatientChatbot appends the user turn to the sent history, the MediKeep
widget sends exactly the prior turns. -/
theorem history_question_separation_witness :
    (patientChatbotRequest [assistantTurn "prev"] "q2" = some pW2 ∧
      (pW2.question = jsTrim "q2" ∧
        pW2.chat_history = [assistantTurn "prev"] ++ [userTurn pW2.question])) ∧
    (mediKeepRequest [assistantTurn "prev"] "q3" none = some pW3 ∧
      (pW3.question = jsTrim ((none : Option String).getD "q3") ∧
        pW3.chat_history = [assistantTurn "prev"])) :=
  ⟨⟨rfl, history_question_separation.1 [assistantTurn "prev"] "q2" pW2 rfl⟩,
    ⟨rfl, history_question_separation.2 [assistantTurn "prev"] "q3" none pW3
      rfl⟩⟩

/-! ### Claim C10 -/

/-- Claim C10: client-side `top_k` defaulting — `sendRAGChat` fills in
`top_k = 6` when the caller omits it and `chat_history = []` when omitted,
while any caller-supplied `top_k` (zero and negative values included) and
any supplied history are forwarded to the server unchanged, with no
client-side validation. -/
theorem sendRAGChat_defaults (body : RAGChatRequest) :
    (body.top_k = none → (sendRAGChatPayload body).top_k = 6) ∧
    (∀ t, body.top_k = some t → (sendRAGChatPayload body).top_k = t) ∧
    (body.chat_history = none → (sendRAGChatPayload body).chat_history = []) ∧
    (∀ hist, body.chat_history = some hist →
      (sendRAGChatPayload body).chat_history = hist) := by
  refine ⟨?_, ?_, ?_, ?_⟩
  · intro h; simp [sendRAGChatPayload, h, RAG_TOP_K]
  · intro t h; simp [sendRAGChatPayload, h]
  · intro h; simp [sendRAGChatPayload, h]
  · intro hist h; simp [sendRAGChatPayload, h]

/-- Evaluation witness for C10 at concrete request bodies, including a
negative `top_k` forwarded unchanged. -/
theorem sendRAGChat_defaults_witness :
    (((⟨" hi ", none, none⟩ : RAGChatRequest).top_k = none ∧
        (sendRAGChatPayload ⟨" hi ", none, none⟩).top_k = 6)) ∧
    (((⟨"x", some (-3), none⟩ : RAGChatRequest).top_k = some (-3) ∧
        (sendRAGChatPayload ⟨"x", some (-3), none⟩).top_k = -3)) ∧
    (((⟨"x", some 0, some [userTurn "a"]⟩ : RAGChatRequest).chat_history
          = some [userTurn "a"] ∧
        (sendRAGChatPayload ⟨"x", some 0, some [userTurn "a"]⟩).chat_history
          = [userTurn "a"])) :=
  ⟨⟨rfl, (sendRAGChat_defaults ⟨" hi ", none, none⟩).1 rfl⟩,
    ⟨rfl, (sendRAGChat_defaults ⟨"x", some (-3), none⟩).2.1 (-3) rfl⟩,
    ⟨rfl, (sendRAGChat_defaults ⟨"x", some 0, some [userTurn "a"]⟩).2.2.2
      [userTurn "a"] rfl⟩⟩

end HealthcareAI
